import Mathlib

/-!
Verification of the founders-explorer embedding/scoring core
(`data-scraper/compute_courses_embeddings.py`, Stage A, and
`data-scraper/compute_courses_scores.py`, Stage B).

Texts are modelled as `List Char`; machine floats are modelled by `ℝ`
(the numeric claims are about the real-valued formulas the code computes);
character classes (`\w`, `\s`, lowercasing) use the ASCII model provided by
`Char.isWhitespace` / `Char.isAlphanum` / `Char.toLower`, which matches the
lower-cased course texts the pipeline feeds these functions.
-/

namespace FoundersExplorer

/-! ## Character classes and whitespace normalisation -/

/-- Model of the regex class `\s` (Python whitespace). -/
def isWs (c : Char) : Bool := c.isWhitespace

/-- Model of the regex class `\w` (word character), ASCII approximation. -/
def isWordChar (c : Char) : Bool := c.isAlphanum || c = '_'

/-- The apostrophe character, written via its code point. -/
def apostrophe : Char := Char.ofNat 39

/-- Characters admitted by the token pattern class `[\w\-']`. -/
def isTokChar (c : Char) : Bool := isWordChar c || c = '-' || c = apostrophe

/-- Worker for `runsP`: `cur` holds the current run reversed. -/
def runsGo (p : Char → Bool) (cur : List Char) : List Char → List (List Char)
  | [] => if cur.isEmpty then [] else [cur.reverse]
  | c :: rest =>
    if p c then runsGo p (c :: cur) rest
    else if cur.isEmpty then runsGo p [] rest
    else cur.reverse :: runsGo p [] rest

/-- Maximal runs of characters satisfying `p`; characters failing `p` are
separators and are discarded. -/
def runsP (p : Char → Bool) (l : List Char) : List (List Char) :=
  runsGo p [] l

/-- Join pieces with single spaces (`" ".join`). -/
def joinSpace : List (List Char) → List Char
  | [] => []
  | [p] => p
  | p :: rest => p ++ ' ' :: joinSpace rest

/-- Embedding of `_normalize_whitespace`: `re.sub(r"\s+", " ", text).strip()`,
i.e. the maximal non-whitespace runs joined by single spaces. -/
def normalizeWs (text : List Char) : List Char :=
  joinSpace (runsP (fun c => !isWs c) text)

/-- Python `str.strip()`: drop leading and trailing whitespace. -/
def stripChars (l : List Char) : List Char :=
  ((l.dropWhile isWs).reverse.dropWhile isWs).reverse

/-! ## Sentence segmentation (Stage A `_split_sentences`)

The split pattern is `(?<=[\.\!\?\;\:])\s+|(?<=[。！？；：])`: split on a
whitespace run preceded by ASCII sentence punctuation (consuming the
whitespace), or at the zero-width position directly after a CJK sentence
punctuation character. -/

/-- ASCII sentence-final punctuation of the split pattern. -/
def isSentPunct (c : Char) : Bool :=
  c = '.' || c = '!' || c = '?' || c = ';' || c = ':'

/-- CJK sentence-final punctuation of the split pattern. -/
def isCjkPunct (c : Char) : Bool :=
  c = '。' || c = '！' || c = '？' || c = '；' || c = '：'

/-- Core of `re.split` for the sentence pattern.  `acc` holds the current
piece reversed; the head of `acc` is the look-behind character.  With
`skipping = true` the scanner is consuming the maximal whitespace run of a
`(?<=[punct])\s+` separator match (and `acc` is empty). -/
def splitGo : Bool → List Char → List Char → List (List Char)
  | true, _, [] => [[]]
  | true, _, c :: rest =>
    if isWs c then splitGo true [] rest else splitGo false [c] rest
  | false, [], [] => [[]]
  | false, p :: accRest, [] =>
    if isCjkPunct p then [(p :: accRest).reverse, []]
    else [(p :: accRest).reverse]
  | false, [], c :: rest => splitGo false [c] rest
  | false, p :: accRest, c :: rest =>
    if isSentPunct p && isWs c then
      (p :: accRest).reverse :: splitGo true [] rest
    else if isCjkPunct p then
      (p :: accRest).reverse :: splitGo false [c] rest
    else
      splitGo false (c :: p :: accRest) rest

/-- Embedding of `_split_sentences` at the character-list level: normalise
whitespace, split on the sentence pattern, strip each piece and keep the
pieces whose (stripped) length is at least `minChars`. -/
def splitSentencesL (text : List Char) (minChars : Nat) : List (List Char) :=
  if text.isEmpty then []
  else
    let normalized := normalizeWs text
    if normalized.isEmpty then []
    else ((splitGo false [] normalized).map stripChars).filter
      (fun p => minChars ≤ p.length)

/-- `_split_sentences` on `String`s. -/
def splitSentences (text : String) (minChars : Nat) : List String :=
  (splitSentencesL text.data minChars).map (fun l => String.mk l)

/-! ## Stage A metadata construction (`compute_courses_embeddings.main`) -/

/-- One record of `courses.meta.parquet`. -/
structure MetaRow where
  id : String
  numSentences : Nat
  sentencesOffset : Nat
  sentencesCount : Nat
  textChars : Nat
deriving Repr, DecidableEq

/-- The Stage A main loop: accumulate the global offset over the input rows
(in input-row order), emitting one `MetaRow` per course and the concatenated
global sentence list. -/
def buildMetaAux (minChars : Nat) (offset : Nat) :
    List (String × String) → List MetaRow × List String
  | [] => ([], [])
  | row :: rest =>
    let ss := splitSentences row.2 minChars
    let next := buildMetaAux minChars (offset + ss.length) rest
    (⟨row.1, ss.length, offset, ss.length, row.2.length⟩ :: next.1,
      ss ++ next.2)

/-- Stage A metadata and sentence corpus, starting from global offset 0. -/
def stageAMeta (rows : List (String × String)) (minChars : Nat) :
    List MetaRow × List String :=
  buildMetaAux minChars 0 rows

/-! ## Keyword normalisation, phrase containment and tokenisation (Stage B) -/

/-- Embedding of `_normalize_keyword`:
`re.sub(r"\s+", " ", keyword.strip()).lower()`.  Strip-then-collapse produces
the same result as collapse-then-strip, so we reuse `normalizeWs` and
lower-case afterwards (ASCII model of `str.lower`). -/
def normalizeKeyword (kw : List Char) : List Char :=
  (normalizeWs kw).map Char.toLower

/-- Embedding of `_contains_phrase`: search for the pattern
`(?<!\w){re.escape(phrase)}(?!\w)` in `text`; an empty phrase never
matches (guard `if not phrase`). -/
def containsPhrase (text phrase : List Char) : Bool :=
  if phrase.isEmpty then false
  else (List.range (text.length + 1)).any (fun i =>
    phrase.isPrefixOf (text.drop i)
    && (decide (i = 0) || !isWordChar (text.getD (i - 1) ' '))
    && (decide (text.length ≤ i + phrase.length)
        || !isWordChar (text.getD (i + phrase.length) ' ')))

/-- Embedding of `re.findall(r"\b[\w\-']+\b", text)`: every maximal run of
`[\w\-']` characters contributes the segment from its first word character to
its last word character (runs without a word character match nothing). -/
def tokenizeText (text : List Char) : List (List Char) :=
  (runsP isTokChar text).filterMap (fun run =>
    let t := ((run.dropWhile (fun c => !isWordChar c)).reverse.dropWhile
      (fun c => !isWordChar c)).reverse
    if t.isEmpty then none else some t)

/-- Embedding of `_compute_token_df` composed with dictionary lookup
`token_df.get(token, 0)`: the number of course token sets containing the
token. -/
def tokenDf (tokenSets : List (List (List Char))) (tok : List Char) : Nat :=
  tokenSets.countP (fun s => tok ∈ s)

/-! ## IDF keyword weights (`_compute_keyword_weights`) -/

/-- The raw IDF-like weight of one keyword: `ln((N+1)/(df+1)) + 1` on the
word-boundary-anchored case-insensitive phrase document frequency; when the
phrase never occurs, the average of the same formula over the keyword's
constituent tokens; when additionally the keyword has no tokens,
`ln(N+1) + 1`. -/
noncomputable def rawKeywordWeight (courseTexts : List (List Char))
    (tokenSets : List (List (List Char))) (kw : List Char) : ℝ :=
  let numCourses := courseTexts.length
  let normalized := normalizeKeyword kw
  let docFreq := courseTexts.countP (fun text => containsPhrase text normalized)
  if 0 < docFreq then
    Real.log ((numCourses + 1) / (docFreq + 1)) + 1
  else
    let tokens := tokenizeText normalized
    if tokens.isEmpty then Real.log (numCourses + 1) + 1
    else
      (tokens.map (fun tok =>
        Real.log ((numCourses + 1) / (tokenDf tokenSets tok + 1)) + 1)).sum
        / tokens.length

/-- Worker for `dedupFirst`, carrying the set of already-seen keys. -/
def dedupFirstAux (seen : List (List Char)) :
    List (List Char) → List (List Char)
  | [] => []
  | x :: xs =>
    if x ∈ seen then dedupFirstAux seen xs
    else x :: dedupFirstAux (x :: seen) xs

/-- Deduplicate keeping the first occurrence, mirroring insertion order of a
Python `dict` keyed by keyword (duplicate keywords overwrite with the same
value). -/
def dedupFirst (l : List (List Char)) : List (List Char) :=
  dedupFirstAux [] l

/-- Embedding of `_compute_keyword_weights` for one aspect: raw IDF weights,
normalised to sum to 1 (uniformly distributed when the raw total is not
positive). -/
noncomputable def computeAspectWeights (keywords : List (List Char))
    (courseTexts : List (List Char)) (tokenSets : List (List (List Char))) :
    List (List Char × ℝ) :=
  let kws := dedupFirst keywords
  let raw := kws.map (fun kw => (kw, rawKeywordWeight courseTexts tokenSets kw))
  let total := (raw.map (fun p => p.2)).sum
  if total ≤ 0 then raw.map (fun p => (p.1, (1 : ℝ) / kws.length))
  else raw.map (fun p => (p.1, p.2 / total))

/-! ## L2 normalisation (`_l2_normalize`, shared by both stages) -/

/-- Euclidean norm of a row. -/
noncomputable def rowNorm (r : List ℝ) : ℝ :=
  Real.sqrt ((r.map (fun x => x ^ 2)).sum)

/-- Embedding of `_l2_normalize`: rows with zero norm are replaced by the
zero vector (the code sets their norm divisor to 1 and then overwrites the
row with zeros); all other rows are divided by their norm. -/
noncomputable def l2Normalize (m : List (List ℝ)) : List (List ℝ) :=
  m.map (fun r =>
    if rowNorm r = 0 then r.map (fun _ => (0 : ℝ))
    else r.map (fun x => x / rowNorm r))

/-! ## Per-course-aspect scoring (`_score_course_aspect`) -/

/-- `EXPECTED_EMBED_DIM` of the BGEM3 dense output. -/
def expectedEmbedDim : Nat := 1024

/-- The `KeywordConfig` dataclass. -/
structure KeywordConfig where
  keyword : String
  normalized : String
  vector : List ℝ
  weight : ℝ

/-- One entry of the `keyword_scores` payload; the sentinel `-1` local index
of the code is modelled as `none`. -/
structure KwScore where
  keyword : String
  weight : ℝ
  cosine : ℝ
  hit : ℝ
  sentenceLocalIndex : Option Nat
  sentenceGlobalIndex : Option Nat

/-- One entry of the `evidence` payload. -/
structure EvidenceEntry where
  keyword : String
  cosine : ℝ
  hit : ℝ
  sentenceLocalIndex : Nat
  sentenceGlobalIndex : Nat
  sentence : String

/-- The dictionary returned by `_score_course_aspect`. -/
structure ScoreResult where
  coverage : ℝ
  quality : ℝ
  score : ℝ
  keywordScores : List KwScore
  evidence : List EvidenceEntry

/-- Dot product of two rows (the embeddings are pre-normalised, so this is
the cosine similarity the code computes with `@`). -/
def dot (a b : List ℝ) : ℝ := (List.zipWith (fun x y => x * y) a b).sum

/-- `ndarray.size` of a row-list matrix: total number of entries. -/
def matrixSize (m : List (List ℝ)) : Nat := (m.map List.length).sum

/-- `np.argmax`: index of the first occurrence of the maximum (0 on the
empty list). -/
noncomputable def argmaxFirst : List ℝ → Nat
  | [] => 0
  | x :: xs => if ∀ y ∈ xs, y ≤ x then 0 else argmaxFirst xs + 1

/-- The best similarity of a keyword vector against the course's sentence
embeddings, read off at the argmax index exactly as the code does with
`sim[argmax_indices, np.arange(num_keywords)]`. -/
noncomputable def bestSim (sentEmb : List (List ℝ)) (v : List ℝ) : ℝ :=
  let col := sentEmb.map (fun row => dot row v)
  col.getD (argmaxFirst col) 0

/-- The logistic sigmoid. -/
noncomputable def sigmoid (x : ℝ) : ℝ := 1 / (1 + Real.exp (-x))

/-- Embedding of `_score_course_aspect`.  The `ValueError` on non-positive
`gamma` is modelled as `Except.error`; note that the code performs the empty
input early return before the `gamma` check. -/
noncomputable def scoreCourseAspect (sentEmb : List (List ℝ))
    (sentenceOffset : Nat) (courseSentences : List String)
    (configs : List KeywordConfig) (tau gamma alpha : ℝ) (topkHits : Nat)
    (hitThreshold : ℝ) : Except String ScoreResult :=
  let numKeywords := configs.length
  let weights := configs.map (fun cfg => cfg.weight)
  if matrixSize sentEmb = 0 ∨ numKeywords = 0 then
    .ok ⟨0, 0, 0, [], []⟩
  else
    let simSize := sentEmb.length * numKeywords
    let argmaxes : List (Option Nat) :=
      if simSize = 0 then List.replicate numKeywords none
      else configs.map (fun cfg =>
        some (argmaxFirst (sentEmb.map (fun row => dot row cfg.vector))))
    let sK : List ℝ :=
      if simSize = 0 then List.replicate numKeywords (-1)
      else configs.map (fun cfg => bestSim sentEmb cfg.vector)
    if gamma ≤ 0 then .error "gamma must be positive"
    else
      let hK := sK.map (fun s => sigmoid ((s - tau) / gamma))
      let s01 := sK.map (fun s => (s + 1) / 2)
      let weightedHits := List.zipWith (fun x y => x * y) weights hK
      let coverage := weightedHits.sum
      let denom := weightedHits.sum + 1e-8
      let quality :=
        if 0 < denom then
          (List.zipWith (fun x y => x * y) weightedHits s01).sum / denom
        else 0
      let score := alpha * coverage + (1 - alpha) * quality
      let keywordScores := (List.range numKeywords).map (fun idx =>
        { keyword := (configs.getD idx ⟨"", "", [], 0⟩).keyword
          weight := (configs.getD idx ⟨"", "", [], 0⟩).weight
          cosine := sK.getD idx 0
          hit := hK.getD idx 0
          sentenceLocalIndex := argmaxes.getD idx none
          sentenceGlobalIndex :=
            (argmaxes.getD idx none).map (fun j => sentenceOffset + j) })
      let candidates := ((List.range numKeywords).map
        (fun idx => (idx, hK.getD idx 0))).filter
        (fun p => hitThreshold < p.2 ∧ (argmaxes.getD p.1 none).isSome)
      let sorted := candidates.mergeSort (fun a b => b.2 ≤ a.2)
      let evidence := (sorted.take topkHits).map (fun p =>
        let localIdx := (argmaxes.getD p.1 none).getD 0
        { keyword := (configs.getD p.1 ⟨"", "", [], 0⟩).keyword
          cosine := sK.getD p.1 0
          hit := hK.getD p.1 0
          sentenceLocalIndex := localIdx
          sentenceGlobalIndex := sentenceOffset + localIdx
          sentence := courseSentences.getD localIdx "" })
      .ok ⟨coverage, quality, score, keywordScores, evidence⟩

/-! ## Cross-dataset calibration (`_gaussian_cdf_from_z` and `main`) -/

/-- `MIN_STD`. -/
noncomputable def minStd : ℝ := 1e-6

/-- `Z_CDF_CLIP`. -/
noncomputable def zCdfClip : ℝ := 3

/-- The standard normal cumulative distribution function
(`scipy.stats.norm.cdf`, equivalently `0.5 * (1 + erf(z / sqrt 2))`). -/
noncomputable def gaussianCdf (z : ℝ) : ℝ :=
  (∫ t in Set.Iic z, Real.exp (-(1 / 2) * t ^ 2)) / Real.sqrt (2 * Real.pi)

/-- Embedding of `_gaussian_cdf_from_z`: clip the z-score to
`±Z_CDF_CLIP` and apply the standard normal CDF. -/
noncomputable def gaussianCdfFromZ (z : ℝ) : ℝ :=
  gaussianCdf (min (max z (-zCdfClip)) zCdfClip)

/-- Embedding of the calibration loop body in `main` for one of the three
numeric columns: mean, population standard deviation (`ddof=0`),
near-constant guard (`sd < MIN_STD or np.isclose(sd, 0.0)`, the latter being
`sd ≤ 1e-8`), and otherwise the clipped z-score mapped through the standard
normal CDF. -/
noncomputable def calibrateColumn (col : List ℝ) : List ℝ :=
  let n : ℝ := col.length
  let mu := col.sum / n
  let sd := Real.sqrt (((col.map (fun v => (v - mu) ^ 2)).sum) / n)
  if sd < minStd ∨ sd ≤ 1e-8 then col.map (fun _ => (1 : ℝ) / 2)
  else col.map (fun v => gaussianCdfFromZ ((v - mu) / sd))

/-! ## Stage A CSV loading (`_load_rows`) -/

/-- A CSV file as seen through `csv.DictReader` / `csv.DictWriter`: the
header and, per record, the association list from column name to value
(missing trailing values are modelled as absent keys). -/
structure CsvTable where
  header : List String
  records : List (List (String × String))
deriving Repr, DecidableEq

/-- The in-memory rows `_load_rows` builds: each record projected to its
`row_id` and `text` values (missing or `None` values become `""`). -/
def projectRows (f : CsvTable) : List (List (String × String)) :=
  f.records.map (fun r =>
    [("row_id", ((r.lookup "row_id").getD "")),
     ("text", ((r.lookup "text").getD ""))])

/-- Embedding of `_load_rows`: reject a missing `row_id`/`text` column;
when any other column is present, rewrite the file in place with only the
two kept columns, otherwise leave the file untouched.  Returns the projected
rows and the file content after the call. -/
def loadRows (f : CsvTable) :
    Except String (List (List (String × String)) × CsvTable) :=
  if "row_id" ∉ f.header then .error "Missing row_id column"
  else if "text" ∉ f.header then .error "Missing text column"
  else
    let extraColumns := f.header.any
      (fun col => !(col = "row_id" || col = "text"))
    let after := if extraColumns
      then CsvTable.mk ["row_id", "text"] (projectRows f)
      else f
    .ok (projectRows f, after)

/-! ## Specification helpers -/

/-- Offsets obtained by monotonically accumulating counts from a starting
offset (specification of the Stage A offset assignment). -/
def prefixSums (off : Nat) : List Nat → List Nat
  | [] => []
  | c :: cs => off :: prefixSums (off + c) cs

/-- Non-whitespace characters of a character list. -/
def nonWsChars (l : List Char) : List Char := l.filter (fun c => !isWs c)

/-- The `sentences_offset` column of the Stage A metadata. -/
def stageAOffsets (rows : List (String × String)) (minChars : Nat) :
    List Nat :=
  (stageAMeta rows minChars).1.map (fun m => m.sentencesOffset)

/-- The `sentences_count` column of the Stage A metadata. -/
def stageACounts (rows : List (String × String)) (minChars : Nat) :
    List Nat :=
  (stageAMeta rows minChars).1.map (fun m => m.sentencesCount)

/-! # Theorems -/

/-! ## Stage A offset bookkeeping (C4) -/

lemma buildMetaAux_length (minChars : Nat) :
    ∀ (rows : List (String × String)) (off : Nat),
      ((buildMetaAux minChars off rows).1).length = rows.length := by
  intro rows
  induction rows with
  | nil => intro off; simp [buildMetaAux]
  | cons r rest ih => intro off; simp [buildMetaAux, ih]

lemma buildMetaAux_offsets_prefixSums (minChars : Nat) :
    ∀ (rows : List (String × String)) (off : Nat),
      ((buildMetaAux minChars off rows).1).map (fun m => m.sentencesOffset)
        = prefixSums off
            (((buildMetaAux minChars off rows).1).map
              (fun m => m.sentencesCount)) := by
  intro rows
  induction rows with
  | nil => intro off; simp [buildMetaAux, prefixSums]
  | cons r rest ih => intro off; simp [buildMetaAux, prefixSums, ih]

lemma buildMetaAux_counts_sum (minChars : Nat) :
    ∀ (rows : List (String × String)) (off : Nat),
      ((((buildMetaAux minChars off rows).1).map
          (fun m => m.sentencesCount)).sum)
        = ((buildMetaAux minChars off rows).2).length := by
  intro rows
  induction rows with
  | nil => intro off; simp [buildMetaAux]
  | cons r rest ih => intro off; simp [buildMetaAux, ih]

lemma prefixSums_getD :
    ∀ (cs : List Nat) (off i : Nat), i < cs.length →
      (prefixSums off cs).getD i 0 = off + (cs.take i).sum := by
  intro cs
  induction cs with
  | nil => intro off i h; simp at h
  | cons c cs ih =>
    intro off i h
    cases i with
    | zero => simp [prefixSums]
    | succ n =>
      have hn : n < cs.length := by simpa using h
      simp only [prefixSums, List.getD_cons_succ, List.take_succ_cons,
        List.sum_cons]
      rw [ih (off + c) n hn]
      omega

lemma sum_take_succ_getD :
    ∀ (l : List Nat) (i : Nat), i < l.length →
      (l.take (i + 1)).sum = (l.take i).sum + l.getD i 0 := by
  intro l
  induction l with
  | nil => intro i h; simp at h
  | cons a l ih =>
    intro i h
    cases i with
    | zero => simp
    | succ n =>
      have hn : n < l.length := by simpa using h
      simp only [List.take_succ_cons, List.sum_cons, List.getD_cons_succ]
      rw [ih n hn]
      omega

lemma sum_take_mono (l : List Nat) (i j : Nat) (h : i ≤ j) :
    (l.take i).sum ≤ (l.take j).sum := by
  have h1 : l.take i = (l.take j).take i := by
    rw [List.take_take, Nat.min_eq_left h]
  calc (l.take i).sum = ((l.take j).take i).sum := by rw [h1]
    _ ≤ ((l.take j).take i).sum + ((l.take j).drop i).sum :=
        Nat.le_add_right _ _
    _ = (l.take j).sum := by rw [← List.sum_append, List.take_append_drop]

/-- C4: in the Stage A course metadata the first course's `sentences_offset`
is 0, `offset[i] + count[i] = offset[i+1]` for consecutive courses, the
offset sequence is non-decreasing, each offset is the prefix sum of the
counts before it (so the segments `[offset_i, offset_i + count_i)` tile the
sentence corpus in input-row order with no gaps and no overlaps), and the
counts sum to the corpus length. -/
theorem stageA_offsets_partition (rows : List (String × String))
    (minChars : Nat) :
    (rows ≠ [] → (stageAOffsets rows minChars).getD 0 0 = 0)
    ∧ (∀ i, i + 1 < (stageAMeta rows minChars).1.length →
        (stageAOffsets rows minChars).getD i 0
          + (stageACounts rows minChars).getD i 0
        = (stageAOffsets rows minChars).getD (i + 1) 0)
    ∧ (∀ i j, i ≤ j → j < (stageAMeta rows minChars).1.length →
        (stageAOffsets rows minChars).getD i 0
          ≤ (stageAOffsets rows minChars).getD j 0)
    ∧ (∀ i, i < (stageAMeta rows minChars).1.length →
        (stageAOffsets rows minChars).getD i 0
          = ((stageACounts rows minChars).take i).sum)
    ∧ (stageACounts rows minChars).sum = (stageAMeta rows minChars).2.length
    := by
  have hoff : stageAOffsets rows minChars
      = prefixSums 0 (stageACounts rows minChars) :=
    buildMetaAux_offsets_prefixSums minChars rows 0
  have hclen : (stageACounts rows minChars).length
      = (stageAMeta rows minChars).1.length := by
    simp [stageACounts]
  have hmlen : (stageAMeta rows minChars).1.length = rows.length :=
    buildMetaAux_length minChars rows 0
  refine ⟨?_, ?_, ?_, ?_, ?_⟩
  · intro hne
    have h0 : 0 < (stageACounts rows minChars).length := by
      rw [hclen, hmlen]
      exact List.length_pos.mpr hne
    rw [hoff, prefixSums_getD _ 0 0 h0]
    simp
  · intro i hi
    have hi1 : i + 1 < (stageACounts rows minChars).length := by omega
    have hi0 : i < (stageACounts rows minChars).length := by omega
    rw [hoff, prefixSums_getD _ 0 i hi0, prefixSums_getD _ 0 (i + 1) hi1,
      sum_take_succ_getD _ i hi0]
    omega
  · intro i j hij hj
    have hj0 : j < (stageACounts rows minChars).length := by omega
    have hi0 : i < (stageACounts rows minChars).length := by omega
    rw [hoff, prefixSums_getD _ 0 i hi0, prefixSums_getD _ 0 j hj0]
    have := sum_take_mono (stageACounts rows minChars) i j hij
    omega
  · intro i hi
    have hi0 : i < (stageACounts rows minChars).length := by omega
    rw [hoff, prefixSums_getD _ 0 i hi0]
    omega
  · exact buildMetaAux_counts_sum minChars rows 0

/-- Witness for C4 at a concrete two-course input. -/
theorem stageA_offsets_partition_witness :
    (([("a", "Hi there. Bye now!"), ("b", "One sentence")]
        : List (String × String)) ≠ []
      ∧ 0 + 1 < (stageAMeta [("a", "Hi there. Bye now!"),
          ("b", "One sentence")] 3).1.length)
    ∧ (stageAOffsets [("a", "Hi there. Bye now!"), ("b", "One sentence")] 3
        ).getD 0 0 = 0
    ∧ (stageAOffsets [("a", "Hi there. Bye now!"), ("b", "One sentence")] 3
        ).getD 0 0
      + (stageACounts [("a", "Hi there. Bye now!"), ("b", "One sentence")] 3
        ).getD 0 0
      = (stageAOffsets [("a", "Hi there. Bye now!"), ("b", "One sentence")] 3
        ).getD 1 0 :=
  ⟨⟨by decide, by decide⟩,
    (stageA_offsets_partition
      [("a", "Hi there. Bye now!"), ("b", "One sentence")] 3).1 (by decide),
    (stageA_offsets_partition
      [("a", "Hi there. Bye now!"), ("b", "One sentence")] 3).2.1 0
      (by decide)⟩

/-! ## Stage A CSV frame effect (C9) -/

/-- C9: when the input CSV has any column other than `row_id` and `text`,
`_load_rows` rewrites the input file in place keeping only those two
columns; when it has exactly those two columns the file is left unchanged.
-/
theorem loadRows_frame (f : CsvTable)
    (hrow : "row_id" ∈ f.header) (htext : "text" ∈ f.header) :
    ((∃ c ∈ f.header, c ≠ "row_id" ∧ c ≠ "text") →
      loadRows f = .ok (projectRows f,
        CsvTable.mk ["row_id", "text"] (projectRows f)))
    ∧ ((∀ c ∈ f.header, c = "row_id" ∨ c = "text") →
      loadRows f = .ok (projectRows f, f)) := by
  have h1 : ¬ ("row_id" ∉ f.header) := by simpa using hrow
  have h2 : ¬ ("text" ∉ f.header) := by simpa using htext
  constructor
  · intro hex
    have hany : f.header.any (fun col => !(col = "row_id" || col = "text"))
        = true := by
      rcases hex with ⟨c, hc, hcr, hct⟩
      refine List.any_eq_true.mpr ⟨c, hc, ?_⟩
      simp [hcr, hct]
    simp only [loadRows, if_neg h1, if_neg h2, hany]
    simp
  · intro hall
    have hany : f.header.any (fun col => !(col = "row_id" || col = "text"))
        = false := by
      rw [List.any_eq_false]
      intro c hc
      rcases hall c hc with h | h <;> simp [h]
    simp only [loadRows, if_neg h1, if_neg h2, hany]
    simp

/-- Witness for C9: one table with an extra column is rewritten, one table
with exactly the two required columns is untouched. -/
theorem loadRows_frame_witness :
    (("row_id" ∈ (CsvTable.mk ["row_id", "junk", "text"]
        [[("row_id", "1"), ("junk", "x"), ("text", "hello")]]).header)
      ∧ ("text" ∈ (CsvTable.mk ["row_id", "junk", "text"]
        [[("row_id", "1"), ("junk", "x"), ("text", "hello")]]).header)
      ∧ (∃ c ∈ (CsvTable.mk ["row_id", "junk", "text"]
          [[("row_id", "1"), ("junk", "x"), ("text", "hello")]]).header,
          c ≠ "row_id" ∧ c ≠ "text")
      ∧ ("row_id" ∈ (CsvTable.mk ["row_id", "text"]
          [[("row_id", "1"), ("text", "hello")]]).header)
      ∧ ("text" ∈ (CsvTable.mk ["row_id", "text"]
          [[("row_id", "1"), ("text", "hello")]]).header)
      ∧ (∀ c ∈ (CsvTable.mk ["row_id", "text"]
          [[("row_id", "1"), ("text", "hello")]]).header,
          c = "row_id" ∨ c = "text"))
    ∧ loadRows (CsvTable.mk ["row_id", "junk", "text"]
        [[("row_id", "1"), ("junk", "x"), ("text", "hello")]])
      = .ok (projectRows (CsvTable.mk ["row_id", "junk", "text"]
          [[("row_id", "1"), ("junk", "x"), ("text", "hello")]]),
        CsvTable.mk ["row_id", "text"]
          (projectRows (CsvTable.mk ["row_id", "junk", "text"]
            [[("row_id", "1"), ("junk", "x"), ("text", "hello")]])))
    ∧ loadRows (CsvTable.mk ["row_id", "text"]
        [[("row_id", "1"), ("text", "hello")]])
      = .ok (projectRows (CsvTable.mk ["row_id", "text"]
          [[("row_id", "1"), ("text", "hello")]]),
        CsvTable.mk ["row_id", "text"]
          [[("row_id", "1"), ("text", "hello")]]) :=
  ⟨⟨by decide, by decide, by decide, by decide, by decide, by decide⟩,
    (loadRows_frame _ (by decide) (by decide)).1 (by decide),
    (loadRows_frame _ (by decide) (by decide)).2 (by decide)⟩

/-! ## Degenerate-input scoring (C5) and the gamma check (C6) -/

/-- C5: with zero sentences (or zero keywords) `_score_course_aspect`
returns coverage = quality = score = 0 with empty `keyword_scores` and
`evidence`, through the early return that precedes all arithmetic (so no
division is attempted). -/
theorem scoreCourseAspect_empty (sentEmb : List (List ℝ))
    (sentenceOffset : Nat) (courseSentences : List String)
    (configs : List KeywordConfig) (tau gamma alpha : ℝ) (topkHits : Nat)
    (hitThreshold : ℝ) (h : sentEmb = [] ∨ configs = []) :
    scoreCourseAspect sentEmb sentenceOffset courseSentences configs tau
      gamma alpha topkHits hitThreshold = .ok ⟨0, 0, 0, [], []⟩ := by
  have hcond : matrixSize sentEmb = 0 ∨ configs.length = 0 := by
    rcases h with h | h <;> simp [h, matrixSize]
  unfold scoreCourseAspect
  rw [if_pos hcond]

/-- Witness for C5 at a zero-sentence course and a one-keyword aspect. -/
theorem scoreCourseAspect_empty_witness :
    (([] : List (List ℝ)) = []
        ∨ ([⟨"k", "k", [(1 : ℝ)], 1⟩] : List KeywordConfig) = [])
    ∧ scoreCourseAspect [] 0 [] [⟨"k", "k", [(1 : ℝ)], 1⟩]
        0.7 0.06 0.6 5 0.5 = .ok ⟨0, 0, 0, [], []⟩ :=
  ⟨Or.inl rfl,
    scoreCourseAspect_empty [] 0 [] [⟨"k", "k", [(1 : ℝ)], 1⟩]
      0.7 0.06 0.6 5 0.5 (Or.inl rfl)⟩

/-- Counterexample to C6 as stated: calling the scorer with
`gamma = -1 ≤ 0` on a course with zero sentences raises no error — the
empty-input early return happens before the gamma check, so the call
returns the all-zero result instead of failing. -/
theorem scoreCourseAspect_gamma_not_checked_on_empty :
    ((-1 : ℝ) ≤ 0)
    ∧ scoreCourseAspect [] 0 [] [⟨"k", "k", [(1 : ℝ)], 1⟩]
        0.7 (-1) 0.6 5 0.5 = .ok ⟨0, 0, 0, [], []⟩ := by
  constructor
  · norm_num
  · unfold scoreCourseAspect
    rw [if_pos]
    simp [matrixSize]

/-- C6 (amended): for every call on a course with at least one sentence
embedding entry and an aspect with at least one keyword, `gamma ≤ 0` raises
`ValueError("gamma must be positive")` before coverage, quality or score is
computed; with zero sentences or zero keywords the all-zero early return
takes precedence and no error is raised. -/
theorem scoreCourseAspect_gamma_rejected (sentEmb : List (List ℝ))
    (sentenceOffset : Nat) (courseSentences : List String)
    (configs : List KeywordConfig) (tau gamma alpha : ℝ) (topkHits : Nat)
    (hitThreshold : ℝ) (hsz : matrixSize sentEmb ≠ 0) (hk : configs ≠ [])
    (hg : gamma ≤ 0) :
    scoreCourseAspect sentEmb sentenceOffset courseSentences configs tau
      gamma alpha topkHits hitThreshold
      = .error "gamma must be positive" := by
  have hcond : ¬ (matrixSize sentEmb = 0 ∨ configs.length = 0) := by
    push_neg
    exact ⟨hsz, by simpa using hk⟩
  unfold scoreCourseAspect
  rw [if_neg hcond]
  simp only [if_pos hg]

/-- Witness for the amended C6 at a one-sentence, one-keyword input with
`gamma = 0`. -/
theorem scoreCourseAspect_gamma_rejected_witness :
    (matrixSize [[(1 : ℝ)]] ≠ 0
      ∧ ([⟨"k", "k", [(1 : ℝ)], 1⟩] : List KeywordConfig) ≠ []
      ∧ (0 : ℝ) ≤ 0)
    ∧ scoreCourseAspect [[(1 : ℝ)]] 0 ["s"] [⟨"k", "k", [(1 : ℝ)], 1⟩]
        0.7 0 0.6 5 0.5 = .error "gamma must be positive" :=
  ⟨⟨by simp [matrixSize], by simp, le_refl 0⟩,
    scoreCourseAspect_gamma_rejected [[(1 : ℝ)]] 0 ["s"]
      [⟨"k", "k", [(1 : ℝ)], 1⟩] 0.7 0 0.6 5 0.5
      (by simp [matrixSize]) (by simp) (le_refl 0)⟩

/-! ## L2 normalisation (C8) -/

lemma sum_sq_nonneg (r : List ℝ) : 0 ≤ (r.map (fun x => x ^ 2)).sum := by
  apply List.sum_nonneg
  intro x hx
  rcases List.mem_map.mp hx with ⟨y, _, rfl⟩
  exact sq_nonneg y

lemma rowNorm_nonneg (r : List ℝ) : 0 ≤ rowNorm r := Real.sqrt_nonneg _

lemma sum_map_div (l : List ℝ) (c : ℝ) :
    (l.map (fun x => x / c)).sum = l.sum / c := by
  induction l with
  | nil => simp
  | cons a l ih => simp [ih, add_div]

lemma getD_map_of_lt {α β : Type} (f : α → β) (l : List α) (i : Nat)
    (h : i < l.length) (d : α) (e : β) :
    (l.map f).getD i e = f (l.getD i d) := by
  rw [List.getD_eq_getElem?_getD, List.getD_eq_getElem?_getD,
    List.getElem?_map, List.getElem?_eq_getElem h]
  simp

lemma rowNorm_div_self (r : List ℝ) (hr : rowNorm r ≠ 0) :
    rowNorm (r.map (fun x => x / rowNorm r)) = 1 := by
  have hs : 0 ≤ (r.map (fun x => x ^ 2)).sum := sum_sq_nonneg r
  have hsq : rowNorm r ^ 2 = (r.map (fun x => x ^ 2)).sum := by
    rw [rowNorm, Real.sq_sqrt hs]
  have hne : (r.map (fun x => x ^ 2)).sum ≠ 0 := by
    intro h0
    exact hr (by rw [rowNorm, h0, Real.sqrt_zero])
  have hmap : (r.map (fun x => x / rowNorm r)).map (fun x => x ^ 2)
      = (r.map (fun x => x ^ 2)).map (fun y => y / rowNorm r ^ 2) := by
    rw [List.map_map, List.map_map]
    apply List.map_congr_left
    intro x _
    simp [div_pow]
  rw [rowNorm, hmap, sum_map_div, hsq, div_self hne, Real.sqrt_one]

/-- C8: `_l2_normalize` maps every row with nonzero Euclidean norm to that
row divided by its norm (which then has unit norm), and every row with zero
norm to the zero vector of the same length; the zero-norm divisor is
replaced by 1 before dividing, so no division by zero occurs. -/
theorem l2Normalize_rows (m : List (List ℝ)) (i : Nat) (hi : i < m.length) :
    (rowNorm (m.getD i []) ≠ 0 →
      (l2Normalize m).getD i []
        = (m.getD i []).map (fun x => x / rowNorm (m.getD i []))
      ∧ rowNorm ((l2Normalize m).getD i []) = 1)
    ∧ (rowNorm (m.getD i []) = 0 →
      (l2Normalize m).getD i [] = (m.getD i []).map (fun _ => (0 : ℝ))) := by
  have hget : (l2Normalize m).getD i []
      = (fun r => if rowNorm r = 0 then r.map (fun _ => (0 : ℝ))
          else r.map (fun x => x / rowNorm r)) (m.getD i []) := by
    rw [l2Normalize]
    exact getD_map_of_lt _ m i hi [] []
  constructor
  · intro hr
    have heq : (l2Normalize m).getD i []
        = (m.getD i []).map (fun x => x / rowNorm (m.getD i [])) := by
      rw [hget]
      simp only [if_neg hr]
    exact ⟨heq, by rw [heq]; exact rowNorm_div_self _ hr⟩
  · intro hr
    rw [hget]
    simp only [if_pos hr]

/-- Witness for C8 at the matrix `[[3, 4], [0, 0]]`: the first row has norm
5 and normalises to `[3/5, 4/5]` with unit norm, the second has norm 0. -/
theorem l2Normalize_rows_witness :
    ((0 : Nat) < ([[( 3 : ℝ), 4], [0, 0]] : List (List ℝ)).length
      ∧ rowNorm (([[(3 : ℝ), 4], [0, 0]] : List (List ℝ)).getD 0 []) ≠ 0
      ∧ (1 : Nat) < ([[( 3 : ℝ), 4], [0, 0]] : List (List ℝ)).length
      ∧ rowNorm (([[(3 : ℝ), 4], [0, 0]] : List (List ℝ)).getD 1 []) = 0)
    ∧ rowNorm ((l2Normalize [[(3 : ℝ), 4], [0, 0]]).getD 0 []) = 1
    ∧ (l2Normalize [[(3 : ℝ), 4], [0, 0]]).getD 1 []
      = (([[(3 : ℝ), 4], [0, 0]] : List (List ℝ)).getD 1 []).map
          (fun _ => (0 : ℝ)) := by
  have e0 : (([[(3 : ℝ), 4], [0, 0]] : List (List ℝ)).getD 0 []) = [3, 4] :=
    rfl
  have e1 : (([[(3 : ℝ), 4], [0, 0]] : List (List ℝ)).getD 1 []) = [0, 0] :=
    rfl
  have h5 : rowNorm (([[(3 : ℝ), 4], [0, 0]] : List (List ℝ)).getD 0 [])
      = 5 := by
    rw [e0, rowNorm]
    rw [show (([(3 : ℝ), 4]).map (fun x => x ^ 2)).sum = 5 ^ 2 by
      simp; norm_num]
    exact Real.sqrt_sq (by norm_num)
  have hz : rowNorm (([[(3 : ℝ), 4], [0, 0]] : List (List ℝ)).getD 1 [])
      = 0 := by
    rw [e1, rowNorm]
    rw [show (([(0 : ℝ), 0]).map (fun x => x ^ 2)).sum = 0 by simp]
    exact Real.sqrt_zero
  refine ⟨⟨by norm_num, by rw [h5]; norm_num, by norm_num, hz⟩, ?_, ?_⟩
  · exact ((l2Normalize_rows [[(3 : ℝ), 4], [0, 0]] 0 (by norm_num)).1
      (by rw [h5]; norm_num)).2
  · exact (l2Normalize_rows [[(3 : ℝ), 4], [0, 0]] 1 (by norm_num)).2 hz

/-! ## IDF keyword weights (C3, C10) -/

lemma length_le_sum_of_one_le (l : List ℝ) (h : ∀ x ∈ l, 1 ≤ x) :
    (l.length : ℝ) ≤ l.sum := by
  induction l with
  | nil => simp
  | cons a l ih =>
    have ha := h a (List.mem_cons_self a l)
    have hl := ih (fun x hx => h x (List.mem_cons_of_mem a hx))
    simp only [List.length_cons, List.sum_cons, Nat.cast_succ]
    linarith

lemma idf_term_ge_one (n d : Nat) (hd : d ≤ n) :
    1 ≤ Real.log (((n : ℝ) + 1) / ((d : ℝ) + 1)) + 1 := by
  have hpos : (0 : ℝ) < (d : ℝ) + 1 := by positivity
  have hle : ((d : ℝ) + 1) ≤ ((n : ℝ) + 1) := by
    have : (d : ℝ) ≤ (n : ℝ) := by exact_mod_cast hd
    linarith
  have h1 : (1 : ℝ) ≤ ((n : ℝ) + 1) / ((d : ℝ) + 1) :=
    (one_le_div hpos).mpr hle
  have := Real.log_nonneg h1
  linarith

lemma rawKeywordWeight_ge_one (courseTexts : List (List Char))
    (tokenSets : List (List (List Char))) (kw : List Char)
    (hlen : tokenSets.length = courseTexts.length) :
    1 ≤ rawKeywordWeight courseTexts tokenSets kw := by
  rw [rawKeywordWeight]
  simp only []
  split
  · exact idf_term_ge_one _ _
      (List.countP_le_length _)
  · split
    · have h1 : (1 : ℝ) ≤ ((courseTexts.length : ℝ) + 1) := by
        have : (0 : ℝ) ≤ (courseTexts.length : ℝ) := by positivity
        linarith
      have := Real.log_nonneg h1
      linarith
    · rename_i htoks
      set toks := tokenizeText (normalizeKeyword kw) with htokdef
      have htne : toks ≠ [] := by
        intro h0
        rw [h0] at htoks
        simp at htoks
      have hterms : ∀ x ∈ toks.map (fun tok =>
          Real.log (((courseTexts.length : ℝ) + 1)
            / ((tokenDf tokenSets tok : ℝ) + 1)) + 1), 1 ≤ x := by
        intro x hx
        rcases List.mem_map.mp hx with ⟨tok, _, rfl⟩
        refine idf_term_ge_one _ _ ?_
        calc tokenDf tokenSets tok ≤ tokenSets.length :=
              List.countP_le_length _
          _ = courseTexts.length := hlen
      have hlensum := length_le_sum_of_one_le _ hterms
      have hlpos : (0 : ℝ) < (toks.length : ℝ) := by
        have : 0 < toks.length := List.length_pos.mpr htne
        exact_mod_cast this
      rw [le_div_iff₀ hlpos, one_mul]
      simpa using hlensum

lemma dedupFirst_ne_nil (l : List (List Char)) (h : l ≠ []) :
    dedupFirst l ≠ [] := by
  cases l with
  | nil => exact absurd rfl h
  | cons x xs => simp [dedupFirst, dedupFirstAux]

lemma aspectRawTotal_pos (keywords : List (List Char))
    (courseTexts : List (List Char)) (tokenSets : List (List (List Char)))
    (hne : keywords ≠ []) (hlen : tokenSets.length = courseTexts.length) :
    0 < (((dedupFirst keywords).map
      (fun kw => rawKeywordWeight courseTexts tokenSets kw)).sum) := by
  have hd := dedupFirst_ne_nil keywords hne
  have h1 : ((((dedupFirst keywords).map
      (fun kw => rawKeywordWeight courseTexts tokenSets kw)).length : ℝ))
      ≤ (((dedupFirst keywords).map
      (fun kw => rawKeywordWeight courseTexts tokenSets kw)).sum) := by
    apply length_le_sum_of_one_le
    intro x hx
    rcases List.mem_map.mp hx with ⟨kw, _, rfl⟩
    exact rawKeywordWeight_ge_one courseTexts tokenSets kw hlen
  have h2 : 0 < ((dedupFirst keywords).map
      (fun kw => rawKeywordWeight courseTexts tokenSets kw)).length := by
    simpa [List.length_pos] using hd
  have h3 : (0 : ℝ) < (((dedupFirst keywords).map
      (fun kw => rawKeywordWeight courseTexts tokenSets kw)).length : ℝ) := by
    exact_mod_cast h2
  linarith

lemma computeAspectWeights_normalized (keywords : List (List Char))
    (courseTexts : List (List Char)) (tokenSets : List (List (List Char)))
    (hne : keywords ≠ []) (hlen : tokenSets.length = courseTexts.length) :
    computeAspectWeights keywords courseTexts tokenSets
      = (dedupFirst keywords).map (fun kw =>
          (kw, rawKeywordWeight courseTexts tokenSets kw
            / (((dedupFirst keywords).map
              (fun k => rawKeywordWeight courseTexts tokenSets k)).sum))) := by
  have hpos := aspectRawTotal_pos keywords courseTexts tokenSets hne hlen
  rw [computeAspectWeights]
  simp only [List.map_map]
  have hcomp : ((fun p : List Char × ℝ => p.2) ∘
      (fun kw => (kw, rawKeywordWeight courseTexts tokenSets kw)))
      = fun kw => rawKeywordWeight courseTexts tokenSets kw := rfl
  rw [hcomp]
  rw [if_neg (by exact not_le.mpr hpos)]
  simp [List.map_map, Function.comp]

/-- C3: for a non-empty keyword list, `_compute_keyword_weights` gives each
keyword the raw weight `ln((N+1)/(df+1)) + 1` on its word-boundary-anchored
case-insensitive phrase document frequency; on `df = 0` it instead averages
the same formula over the keyword's constituent tokens with corpus-wide
token document frequencies; and the normalised weights sum to 1 whenever
some keyword has nonzero raw weight. -/
theorem computeKeywordWeights_idf (keywords : List (List Char))
    (courseTexts : List (List Char)) (tokenSets : List (List (List Char)))
    (hne : keywords ≠ []) (hlen : tokenSets.length = courseTexts.length) :
    (∀ kw,
      0 < courseTexts.countP
          (fun t => containsPhrase t (normalizeKeyword kw)) →
      rawKeywordWeight courseTexts tokenSets kw
        = Real.log (((courseTexts.length : ℝ) + 1)
            / ((courseTexts.countP
                (fun t => containsPhrase t (normalizeKeyword kw)) : ℝ) + 1))
          + 1)
    ∧ (∀ kw,
      courseTexts.countP (fun t => containsPhrase t (normalizeKeyword kw))
          = 0 →
      tokenizeText (normalizeKeyword kw) ≠ [] →
      rawKeywordWeight courseTexts tokenSets kw
        = ((tokenizeText (normalizeKeyword kw)).map (fun tok =>
            Real.log (((courseTexts.length : ℝ) + 1)
              / ((tokenDf tokenSets tok : ℝ) + 1)) + 1)).sum
          / ((tokenizeText (normalizeKeyword kw)).length : ℝ))
    ∧ ((∃ kw ∈ dedupFirst keywords,
          rawKeywordWeight courseTexts tokenSets kw ≠ 0) →
      ((computeAspectWeights keywords courseTexts tokenSets).map
        (fun p => p.2)).sum = 1) := by
  refine ⟨?_, ?_, ?_⟩
  · intro kw hdf
    rw [rawKeywordWeight]
    simp only [if_pos hdf]
  · intro kw hdf htoks
    rw [rawKeywordWeight]
    simp only [hdf, lt_irrefl, if_false]
    rw [if_neg (by simpa using htoks)]
  · intro _
    have hpos := aspectRawTotal_pos keywords courseTexts tokenSets hne hlen
    rw [computeAspectWeights_normalized keywords courseTexts tokenSets hne
      hlen]
    rw [List.map_map]
    have hcomp : ((fun p : List Char × ℝ => p.2) ∘ (fun kw =>
        (kw, rawKeywordWeight courseTexts tokenSets kw
          / (((dedupFirst keywords).map
            (fun k => rawKeywordWeight courseTexts tokenSets k)).sum))))
        = fun kw => rawKeywordWeight courseTexts tokenSets kw
          / (((dedupFirst keywords).map
            (fun k => rawKeywordWeight courseTexts tokenSets k)).sum) := rfl
    have hfun : (fun kw => rawKeywordWeight courseTexts tokenSets kw
        / (((dedupFirst keywords).map
          (fun k => rawKeywordWeight courseTexts tokenSets k)).sum))
        = ((fun x : ℝ => x / (((dedupFirst keywords).map
            (fun k => rawKeywordWeight courseTexts tokenSets k)).sum))
          ∘ (fun kw => rawKeywordWeight courseTexts tokenSets kw)) := rfl
    rw [hcomp, hfun, ← List.map_map, sum_map_div]
    exact div_self (ne_of_gt hpos)

/-- Witness for C3 on a one-course, one-keyword corpus where the phrase
occurs verbatim. -/
theorem computeKeywordWeights_idf_witness :
    (([("ai".data : List Char)] : List (List Char)) ≠ []
      ∧ ([["ai".data]] : List (List (List Char))).length
          = ([("we teach ai".data : List Char)] : List (List Char)).length
      ∧ 0 < ([("we teach ai".data : List Char)]).countP
          (fun t => containsPhrase t (normalizeKeyword "ai".data))
      ∧ (∃ kw ∈ dedupFirst [("ai".data : List Char)],
          rawKeywordWeight [("we teach ai".data : List Char)]
            [["ai".data]] kw ≠ 0))
    ∧ rawKeywordWeight [("we teach ai".data : List Char)] [["ai".data]]
        "ai".data
      = Real.log (((([("we teach ai".data : List Char)]).length : ℝ) + 1)
          / ((([("we teach ai".data : List Char)]).countP
              (fun t => containsPhrase t (normalizeKeyword "ai".data)) : ℝ)
            + 1)) + 1
    ∧ ((computeAspectWeights [("ai".data : List Char)]
        [("we teach ai".data : List Char)] [["ai".data]]).map
          (fun p => p.2)).sum = 1 := by
  have hc : ([("we teach ai".data : List Char)]).countP
      (fun t => containsPhrase t (normalizeKeyword "ai".data)) = 1 := by
    decide
  have hraw : (1 : ℝ) ≤ rawKeywordWeight [("we teach ai".data : List Char)]
      [["ai".data]] "ai".data :=
    rawKeywordWeight_ge_one _ _ _ (by decide)
  refine ⟨⟨by decide, by decide, by rw [hc]; norm_num,
    ⟨"ai".data, by decide, by intro h0; rw [h0] at hraw; norm_num at hraw⟩⟩,
    ?_, ?_⟩
  · exact (computeKeywordWeights_idf [("ai".data : List Char)]
      [("we teach ai".data : List Char)] [["ai".data]] (by decide)
      (by decide)).1 "ai".data (by rw [hc]; norm_num)
  · exact (computeKeywordWeights_idf [("ai".data : List Char)]
      [("we teach ai".data : List Char)] [["ai".data]] (by decide)
      (by decide)).2.2
      ⟨"ai".data, by decide, by intro h0; rw [h0] at hraw; norm_num at hraw⟩

/-- C10: every raw IDF weight is at least 1 (document frequencies never
exceed the number of courses, so the logarithm is non-negative in every
branch), hence the aspect's raw total is strictly positive, the uniform
fallback branch is not taken, and every normalised keyword weight is
strictly positive. -/
theorem computeKeywordWeights_pos (keywords : List (List Char))
    (courseTexts : List (List Char)) (tokenSets : List (List (List Char)))
    (hne : keywords ≠ []) (hlen : tokenSets.length = courseTexts.length) :
    (∀ kw, 1 ≤ rawKeywordWeight courseTexts tokenSets kw)
    ∧ 0 < (((dedupFirst keywords).map
        (fun kw => rawKeywordWeight courseTexts tokenSets kw)).sum)
    ∧ computeAspectWeights keywords courseTexts tokenSets
        = (dedupFirst keywords).map (fun kw =>
            (kw, rawKeywordWeight courseTexts tokenSets kw
              / (((dedupFirst keywords).map
                (fun k => rawKeywordWeight courseTexts tokenSets k)).sum)))
    ∧ (∀ p ∈ computeAspectWeights keywords courseTexts tokenSets,
        0 < p.2) := by
  have htotal := aspectRawTotal_pos keywords courseTexts tokenSets hne hlen
  have hnorm := computeAspectWeights_normalized keywords courseTexts
    tokenSets hne hlen
  refine ⟨fun kw => rawKeywordWeight_ge_one courseTexts tokenSets kw hlen,
    htotal, hnorm, ?_⟩
  intro p hp
  rw [hnorm] at hp
  rcases List.mem_map.mp hp with ⟨kw, _, rfl⟩
  have h1 := rawKeywordWeight_ge_one courseTexts tokenSets kw hlen
  exact div_pos (by linarith) htotal

/-- Witness for C10 on a one-course corpus with two keywords, one of which
never occurs verbatim. -/
theorem computeKeywordWeights_pos_witness :
    (([("ai".data : List Char), "quantum leap".data] : List (List Char))
        ≠ []
      ∧ ([["ai".data]] : List (List (List Char))).length
          = ([("we teach ai".data : List Char)] : List (List Char)).length)
    ∧ (1 : ℝ) ≤ rawKeywordWeight [("we teach ai".data : List Char)]
        [["ai".data]] "quantum leap".data
    ∧ (∀ p ∈ computeAspectWeights
        [("ai".data : List Char), "quantum leap".data]
        [("we teach ai".data : List Char)] [["ai".data]], 0 < p.2) :=
  ⟨⟨by decide, by decide⟩,
    (computeKeywordWeights_pos
      [("ai".data : List Char), "quantum leap".data]
      [("we teach ai".data : List Char)] [["ai".data]] (by decide)
      (by decide)).1 "quantum leap".data,
    (computeKeywordWeights_pos
      [("ai".data : List Char), "quantum leap".data]
      [("we teach ai".data : List Char)] [["ai".data]] (by decide)
      (by decide)).2.2.2⟩

/-! ## Scoring formulas (C1) -/

lemma argmaxFirst_spec (l : List ℝ) (h : l ≠ []) :
    l.getD (argmaxFirst l) 0 ∈ l
    ∧ ∀ y ∈ l, y ≤ l.getD (argmaxFirst l) 0 := by
  induction l with
  | nil => exact absurd rfl h
  | cons x xs ih =>
    rw [argmaxFirst]
    by_cases hx : ∀ y ∈ xs, y ≤ x
    · rw [if_pos hx]
      refine ⟨List.mem_cons_self x xs, ?_⟩
      intro y hy
      rcases List.mem_cons.mp hy with rfl | hy
      · exact le_refl _
      · exact hx y hy
    · rw [if_neg hx]
      have hxs : xs ≠ [] := by
        rintro rfl
        exact hx (by simp)
      obtain ⟨hmem, hmax⟩ := ih hxs
      rw [List.getD_cons_succ]
      refine ⟨List.mem_cons_of_mem x hmem, ?_⟩
      intro y hy
      rcases List.mem_cons.mp hy with rfl | hy
      · push_neg at hx
        obtain ⟨z, hz, hlt⟩ := hx
        exact le_trans (le_of_lt hlt) (hmax z hz)
      · exact hmax y hy

lemma bestSim_spec (sentEmb : List (List ℝ)) (v : List ℝ)
    (h : sentEmb ≠ []) :
    bestSim sentEmb v ∈ sentEmb.map (fun row => dot row v)
    ∧ ∀ y ∈ sentEmb.map (fun row => dot row v), y ≤ bestSim sentEmb v := by
  have hcol : sentEmb.map (fun row => dot row v) ≠ [] := by
    simpa using h
  simpa only [bestSim] using
    argmaxFirst_spec (sentEmb.map (fun row => dot row v)) hcol

lemma sigmoid_pos (x : ℝ) : 0 < sigmoid x := by
  rw [sigmoid]
  have h := Real.exp_pos (-x)
  positivity

lemma zipWith_map_same {α : Type} (f g : α → ℝ) (l : List α) :
    List.zipWith (fun x y => x * y) (l.map f) (l.map g)
      = l.map (fun x => f x * g x) := by
  induction l with
  | nil => simp
  | cons a l ih => simp [ih]

/-- C1: on a course with at least one sentence and an aspect with at least
one keyword (and positive `gamma`, non-negative weights as produced by the
weight normalisation), `_score_course_aspect` returns
`coverage = Σ w_k·h_k`, `quality = Σ(w_k·h_k·(s_k+1)/2) / (Σ w_k·h_k +
1e-8)` and `score = alpha·coverage + (1-alpha)·quality`, where `s_k` is the
maximum similarity of keyword k over the course's sentence embeddings
(first occurrence at ties, via `argmax`) and `h_k = sigmoid((s_k-tau)/
gamma)`. -/
theorem scoreCourseAspect_formula (sentEmb : List (List ℝ))
    (sentenceOffset : Nat) (courseSentences : List String)
    (configs : List KeywordConfig) (tau gamma alpha : ℝ) (topkHits : Nat)
    (hitThreshold : ℝ) (hne : sentEmb ≠ [])
    (hdim : ∀ r ∈ sentEmb, r.length = expectedEmbedDim)
    (hk : configs ≠ []) (hg : 0 < gamma)
    (hw : ∀ cfg ∈ configs, 0 ≤ cfg.weight) :
    ∃ res : ScoreResult,
      scoreCourseAspect sentEmb sentenceOffset courseSentences configs tau
        gamma alpha topkHits hitThreshold = .ok res
      ∧ res.coverage = (configs.map (fun cfg =>
          cfg.weight * sigmoid ((bestSim sentEmb cfg.vector - tau)
            / gamma))).sum
      ∧ res.quality = (configs.map (fun cfg =>
          cfg.weight * sigmoid ((bestSim sentEmb cfg.vector - tau) / gamma)
            * ((bestSim sentEmb cfg.vector + 1) / 2))).sum
          / ((configs.map (fun cfg =>
              cfg.weight * sigmoid ((bestSim sentEmb cfg.vector - tau)
                / gamma))).sum + 1e-8)
      ∧ res.score = alpha * res.coverage + (1 - alpha) * res.quality
      ∧ ∀ cfg ∈ configs,
          bestSim sentEmb cfg.vector
              ∈ sentEmb.map (fun row => dot row cfg.vector)
          ∧ ∀ y ∈ sentEmb.map (fun row => dot row cfg.vector),
              y ≤ bestSim sentEmb cfg.vector := by
  have hslen : sentEmb.length ≠ 0 := fun h => hne (List.length_eq_zero.mp h)
  have hklen : configs.length ≠ 0 := fun h => hk (List.length_eq_zero.mp h)
  have hsz : matrixSize sentEmb ≠ 0 := by
    cases sentEmb with
    | nil => exact absurd rfl hne
    | cons r rest =>
      have hr := hdim r (List.mem_cons_self r rest)
      simp only [matrixSize, List.map_cons, List.sum_cons]
      rw [hr, expectedEmbedDim]
      omega
  have hcond : ¬ (matrixSize sentEmb = 0 ∨ configs.length = 0) := by
    push_neg
    exact ⟨hsz, hklen⟩
  have hsim : ¬ (sentEmb.length * configs.length = 0) := by
    exact Nat.mul_ne_zero hslen hklen
  have hgam : ¬ (gamma ≤ 0) := not_le.mpr hg
  have hwh : List.zipWith (fun x y => x * y)
      (configs.map (fun cfg => cfg.weight))
      ((configs.map (fun cfg => bestSim sentEmb cfg.vector)).map
        (fun s => sigmoid ((s - tau) / gamma)))
      = configs.map (fun cfg =>
          cfg.weight * sigmoid ((bestSim sentEmb cfg.vector - tau)
            / gamma)) := by
    rw [List.map_map]
    exact zipWith_map_same _ _ configs
  have hwh2 : List.zipWith (fun x y => x * y)
      (configs.map (fun cfg =>
        cfg.weight * sigmoid ((bestSim sentEmb cfg.vector - tau) / gamma)))
      ((configs.map (fun cfg => bestSim sentEmb cfg.vector)).map
        (fun s => (s + 1) / 2))
      = configs.map (fun cfg =>
          cfg.weight * sigmoid ((bestSim sentEmb cfg.vector - tau) / gamma)
            * ((bestSim sentEmb cfg.vector + 1) / 2)) := by
    rw [List.map_map]
    exact zipWith_map_same _ _ configs
  have hcovnn : 0 ≤ (configs.map (fun cfg =>
      cfg.weight * sigmoid ((bestSim sentEmb cfg.vector - tau)
        / gamma))).sum := by
    apply List.sum_nonneg
    intro x hx
    rcases List.mem_map.mp hx with ⟨cfg, hcfg, rfl⟩
    exact mul_nonneg (hw cfg hcfg) (le_of_lt (sigmoid_pos _))
  have hdenom : (0 : ℝ) < (configs.map (fun cfg =>
      cfg.weight * sigmoid ((bestSim sentEmb cfg.vector - tau)
        / gamma))).sum + 1e-8 := by
    have : (0 : ℝ) < 1e-8 := by norm_num
    linarith
  unfold scoreCourseAspect
  rw [if_neg hcond]
  simp only [if_neg hsim, if_neg hgam, hwh, hwh2, if_pos hdenom]
  exact ⟨_, rfl, rfl, rfl, rfl,
    fun cfg hcfg => bestSim_spec sentEmb cfg.vector hne⟩

/-- Witness for C1 at a one-sentence course and a one-keyword aspect with
unit weight and `gamma = 1`. -/
theorem scoreCourseAspect_formula_witness :
    (([List.replicate 1024 (1 : ℝ)] : List (List ℝ)) ≠ []
      ∧ (∀ r ∈ ([List.replicate 1024 (1 : ℝ)] : List (List ℝ)),
          r.length = expectedEmbedDim)
      ∧ ([⟨"k", "k", List.replicate 1024 (1 : ℝ), 1⟩]
          : List KeywordConfig) ≠ []
      ∧ (0 : ℝ) < 1
      ∧ (∀ cfg ∈ ([⟨"k", "k", List.replicate 1024 (1 : ℝ), 1⟩]
          : List KeywordConfig), 0 ≤ cfg.weight))
    ∧ ∃ res : ScoreResult,
      scoreCourseAspect [List.replicate 1024 (1 : ℝ)] 0 ["s"]
        [⟨"k", "k", List.replicate 1024 (1 : ℝ), 1⟩] 0.7 1 0.6 5 0.5
          = .ok res
      ∧ res.coverage = (([⟨"k", "k", List.replicate 1024 (1 : ℝ), 1⟩]
          : List KeywordConfig).map (fun cfg =>
          cfg.weight * sigmoid
            ((bestSim [List.replicate 1024 (1 : ℝ)] cfg.vector - 0.7)
              / 1))).sum
      ∧ res.quality = (([⟨"k", "k", List.replicate 1024 (1 : ℝ), 1⟩]
          : List KeywordConfig).map (fun cfg =>
          cfg.weight * sigmoid
            ((bestSim [List.replicate 1024 (1 : ℝ)] cfg.vector - 0.7) / 1)
            * ((bestSim [List.replicate 1024 (1 : ℝ)] cfg.vector + 1)
              / 2))).sum
          / ((([⟨"k", "k", List.replicate 1024 (1 : ℝ), 1⟩]
              : List KeywordConfig).map (fun cfg =>
              cfg.weight * sigmoid
                ((bestSim [List.replicate 1024 (1 : ℝ)] cfg.vector - 0.7)
                  / 1))).sum + 1e-8)
      ∧ res.score = 0.6 * res.coverage + (1 - 0.6) * res.quality
      ∧ ∀ cfg ∈ ([⟨"k", "k", List.replicate 1024 (1 : ℝ), 1⟩]
          : List KeywordConfig),
          bestSim [List.replicate 1024 (1 : ℝ)] cfg.vector
              ∈ ([List.replicate 1024 (1 : ℝ)] : List (List ℝ)).map
                (fun row => dot row cfg.vector)
          ∧ ∀ y ∈ ([List.replicate 1024 (1 : ℝ)] : List (List ℝ)).map
                (fun row => dot row cfg.vector),
              y ≤ bestSim [List.replicate 1024 (1 : ℝ)] cfg.vector := by
  have h1 : ([List.replicate 1024 (1 : ℝ)] : List (List ℝ)) ≠ [] :=
    List.cons_ne_nil _ _
  have h2 : ∀ r ∈ ([List.replicate 1024 (1 : ℝ)] : List (List ℝ)),
      r.length = expectedEmbedDim := by
    intro r hr
    rw [List.mem_singleton] at hr
    rw [hr, List.length_replicate, expectedEmbedDim]
  have h3 : ([⟨"k", "k", List.replicate 1024 (1 : ℝ), 1⟩]
      : List KeywordConfig) ≠ [] := List.cons_ne_nil _ _
  have h5 : ∀ cfg ∈ ([⟨"k", "k", List.replicate 1024 (1 : ℝ), 1⟩]
      : List KeywordConfig), 0 ≤ cfg.weight := by
    intro cfg hcfg
    rw [List.mem_singleton] at hcfg
    rw [hcfg]
    exact zero_le_one
  exact ⟨⟨h1, h2, h3, one_pos, h5⟩,
    scoreCourseAspect_formula [List.replicate 1024 (1 : ℝ)] 0 ["s"]
      [⟨"k", "k", List.replicate 1024 (1 : ℝ), 1⟩] 0.7 1 0.6 5 0.5
      h1 h2 h3 one_pos h5⟩

/-! ## Calibration (C2) -/

lemma sum_const_list (l : List ℝ) (c : ℝ) (h : ∀ v ∈ l, v = c) :
    l.sum = (l.length : ℝ) * c := by
  induction l with
  | nil => simp
  | cons a t ih =>
    have ha := h a (List.mem_cons_self a t)
    have ht := ih (fun v hv => h v (List.mem_cons_of_mem a hv))
    simp only [List.sum_cons, List.length_cons, ht, ha]
    push_cast
    ring

lemma gaussianCdf_nonneg (z : ℝ) : 0 ≤ gaussianCdf z := by
  rw [gaussianCdf]
  apply div_nonneg
  · exact MeasureTheory.setIntegral_nonneg measurableSet_Iic
      (fun t _ => (Real.exp_pos _).le)
  · exact Real.sqrt_nonneg _

lemma gaussianCdf_le_one (z : ℝ) : gaussianCdf z ≤ 1 := by
  rw [gaussianCdf]
  have hb : (0 : ℝ) < 1 / 2 := by norm_num
  have hint : MeasureTheory.Integrable
      (fun t : ℝ => Real.exp (-(1 / 2) * t ^ 2)) :=
    integrable_exp_neg_mul_sq hb
  have hle : (∫ t in Set.Iic z, Real.exp (-(1 / 2) * t ^ 2))
      ≤ ∫ t : ℝ, Real.exp (-(1 / 2) * t ^ 2) :=
    MeasureTheory.setIntegral_le_integral hint
      (MeasureTheory.ae_of_all _ (fun t => (Real.exp_pos _).le))
  have htot : (∫ t : ℝ, Real.exp (-(1 / 2) * t ^ 2))
      = Real.sqrt (Real.pi / (1 / 2)) := integral_gaussian (1 / 2)
  have harg : Real.pi / (1 / 2) = 2 * Real.pi := by ring
  have hpos : (0 : ℝ) < Real.sqrt (2 * Real.pi) :=
    Real.sqrt_pos.mpr (by positivity)
  rw [div_le_one hpos]
  calc (∫ t in Set.Iic z, Real.exp (-(1 / 2) * t ^ 2))
      ≤ ∫ t : ℝ, Real.exp (-(1 / 2) * t ^ 2) := hle
    _ = Real.sqrt (2 * Real.pi) := by rw [htot, harg]

lemma gaussianCdfFromZ_mem_unitInterval (z : ℝ) :
    0 ≤ gaussianCdfFromZ z ∧ gaussianCdfFromZ z ≤ 1 := by
  rw [gaussianCdfFromZ]
  exact ⟨gaussianCdf_nonneg _, gaussianCdf_le_one _⟩

/-- C2: per numeric column, with `mu` the mean and `sd` the population
standard deviation (`ddof = 0`) over all rows, calibration replaces every
value by 0.5 when `sd` is below the minimal threshold, otherwise by
`Phi(clip((v - mu)/sd, -3, 3))`; every calibrated value lies in `[0, 1]`
and a column identical across all rows maps entirely to 0.5. -/
theorem calibrateColumn_spec (col : List ℝ) (hne : col ≠ []) :
    (Real.sqrt (((col.map (fun v =>
        (v - col.sum / (col.length : ℝ)) ^ 2)).sum) / (col.length : ℝ))
        < minStd →
      calibrateColumn col = col.map (fun _ => (1 : ℝ) / 2))
    ∧ (minStd ≤ Real.sqrt (((col.map (fun v =>
        (v - col.sum / (col.length : ℝ)) ^ 2)).sum) / (col.length : ℝ)) →
      calibrateColumn col = col.map (fun v =>
        gaussianCdfFromZ ((v - col.sum / (col.length : ℝ))
          / Real.sqrt (((col.map (fun v =>
            (v - col.sum / (col.length : ℝ)) ^ 2)).sum)
            / (col.length : ℝ)))))
    ∧ (∀ v ∈ calibrateColumn col, 0 ≤ v ∧ v ≤ 1)
    ∧ (∀ c, (∀ v ∈ col, v = c) →
      calibrateColumn col = col.map (fun _ => (1 : ℝ) / 2)) := by
  have hn : (0 : ℝ) < (col.length : ℝ) := by
    have : 0 < col.length := List.length_pos.mpr hne
    exact_mod_cast this
  refine ⟨?_, ?_, ?_, ?_⟩
  · intro hlt
    rw [calibrateColumn]
    simp only [if_pos (Or.inl hlt)]
  · intro hge
    have h1 : ¬ (Real.sqrt (((col.map (fun v =>
        (v - col.sum / (col.length : ℝ)) ^ 2)).sum) / (col.length : ℝ))
        < minStd) := not_lt.mpr hge
    have h2 : ¬ (Real.sqrt (((col.map (fun v =>
        (v - col.sum / (col.length : ℝ)) ^ 2)).sum) / (col.length : ℝ))
        ≤ 1e-8) := by
      apply not_le.mpr
      refine lt_of_lt_of_le ?_ hge
      rw [minStd]
      norm_num
    rw [calibrateColumn]
    simp only [if_neg (not_or.mpr ⟨h1, h2⟩)]
  · intro v hv
    rw [calibrateColumn] at hv
    by_cases hcase : Real.sqrt (((col.map (fun v =>
        (v - col.sum / (col.length : ℝ)) ^ 2)).sum) / (col.length : ℝ))
        < minStd
        ∨ Real.sqrt (((col.map (fun v =>
          (v - col.sum / (col.length : ℝ)) ^ 2)).sum) / (col.length : ℝ))
          ≤ 1e-8
    · rw [if_pos hcase] at hv
      rcases List.mem_map.mp hv with ⟨w, _, rfl⟩
      norm_num
    · rw [if_neg hcase] at hv
      rcases List.mem_map.mp hv with ⟨w, _, rfl⟩
      exact gaussianCdfFromZ_mem_unitInterval _
  · intro c hc
    have hsum : col.sum = (col.length : ℝ) * c := sum_const_list col c hc
    have hmu : col.sum / (col.length : ℝ) = c := by
      rw [hsum]
      exact mul_div_cancel_left₀ c hn.ne'
    have hzero : (col.map (fun v =>
        (v - col.sum / (col.length : ℝ)) ^ 2)).sum = 0 := by
      apply List.sum_eq_zero
      intro x hx
      rcases List.mem_map.mp hx with ⟨v, hv, rfl⟩
      rw [hmu, hc v hv]
      ring
    have hsd : Real.sqrt (((col.map (fun v =>
        (v - col.sum / (col.length : ℝ)) ^ 2)).sum) / (col.length : ℝ))
        = 0 := by
      rw [hzero, zero_div, Real.sqrt_zero]
    rw [calibrateColumn]
    simp only [if_pos (Or.inl (by rw [hsd, minStd]; norm_num :
      Real.sqrt (((col.map (fun v =>
        (v - col.sum / (col.length : ℝ)) ^ 2)).sum) / (col.length : ℝ))
        < minStd))]

/-- Witness for C2 at the constant column `[2, 2]`. -/
theorem calibrateColumn_spec_witness :
    (([(2 : ℝ), 2] : List ℝ) ≠ []
      ∧ (∀ v ∈ ([(2 : ℝ), 2] : List ℝ), v = 2))
    ∧ calibrateColumn [(2 : ℝ), 2]
        = ([(2 : ℝ), 2] : List ℝ).map (fun _ => (1 : ℝ) / 2)
    ∧ (∀ v ∈ calibrateColumn [(2 : ℝ), 2], 0 ≤ v ∧ v ≤ 1) := by
  have hne : ([(2 : ℝ), 2] : List ℝ) ≠ [] := List.cons_ne_nil _ _
  have hconst : ∀ v ∈ ([(2 : ℝ), 2] : List ℝ), v = 2 := by
    intro v hv
    rcases List.mem_cons.mp hv with rfl | hv
    · rfl
    · rcases List.mem_cons.mp hv with rfl | hv
      · rfl
      · simp at hv
  exact ⟨⟨hne, hconst⟩,
    (calibrateColumn_spec [(2 : ℝ), 2] hne).2.2.2 2 hconst,
    (calibrateColumn_spec [(2 : ℝ), 2] hne).2.2.1⟩

/-! ## Sentence segmentation and character preservation (C7) -/

lemma filter_nonWs_dropWhile (l : List Char) :
    (l.dropWhile isWs).filter (fun c => !isWs c)
      = l.filter (fun c => !isWs c) := by
  induction l with
  | nil => rfl
  | cons a l ih =>
    by_cases ha : isWs a
    · rw [List.dropWhile_cons_of_pos ha, ih, List.filter_cons_of_neg]
      simp [ha]
    · rw [List.dropWhile_cons_of_neg ha]

lemma nonWsChars_reverse (l : List Char) :
    nonWsChars l.reverse = (nonWsChars l).reverse := by
  rw [nonWsChars, nonWsChars, List.filter_reverse]

lemma nonWsChars_dropWhile (l : List Char) :
    nonWsChars (l.dropWhile isWs) = nonWsChars l := by
  rw [nonWsChars, nonWsChars]
  exact filter_nonWs_dropWhile l

lemma nonWsChars_stripChars (l : List Char) :
    nonWsChars (stripChars l) = nonWsChars l := by
  rw [stripChars, nonWsChars_reverse, nonWsChars_dropWhile,
    nonWsChars_reverse, List.reverse_reverse, nonWsChars_dropWhile]

lemma nonWsChars_append (a b : List Char) :
    nonWsChars (a ++ b) = nonWsChars a ++ nonWsChars b := by
  rw [nonWsChars, nonWsChars, nonWsChars, List.filter_append]

lemma nonWsChars_cons_ws (c : Char) (l : List Char) (hc : isWs c = true) :
    nonWsChars (c :: l) = nonWsChars l := by
  rw [nonWsChars, nonWsChars, List.filter_cons_of_neg]
  simp [hc]

lemma nonWsChars_joinSpace (ps : List (List Char)) :
    nonWsChars (joinSpace ps) = (ps.map nonWsChars).flatten := by
  induction ps with
  | nil => rfl
  | cons p rest ih =>
    cases rest with
    | nil => simp [joinSpace, nonWsChars]
    | cons q rest2 =>
      rw [show joinSpace (p :: q :: rest2)
        = p ++ ' ' :: joinSpace (q :: rest2) from rfl]
      rw [nonWsChars_append, nonWsChars_cons_ws ' ' _ (by decide), ih]
      simp [List.flatten_cons]

lemma splitGo_filter (l : List Char) :
    ∀ (skipping : Bool) (acc : List Char), (skipping = true → acc = []) →
      ((splitGo skipping acc l).map nonWsChars).flatten
        = nonWsChars (acc.reverse ++ l) := by
  induction l with
  | nil =>
    intro skipping acc hsk
    cases skipping
    · cases acc with
      | nil => rfl
      | cons p accRest =>
        rw [splitGo]
        by_cases hp : isCjkPunct p
        · rw [if_pos hp]
          simp [nonWsChars_append, nonWsChars]
        · rw [if_neg hp]
          simp [nonWsChars_append, nonWsChars]
    · rw [hsk rfl, splitGo]
      rfl
  | cons c rest ih =>
    intro skipping acc hsk
    cases skipping
    · cases acc with
      | nil =>
        rw [splitGo, ih false [c] (by intro h; cases h)]
        rfl
      | cons p accRest =>
        rw [splitGo]
        by_cases h1 : isSentPunct p && isWs c
        · rw [if_pos h1]
          have hc : isWs c = true := by
            have h1c := h1
            simp only [Bool.and_eq_true] at h1c
            exact h1c.2
          rw [List.map_cons, List.flatten_cons, ih true [] (fun _ => rfl)]
          rw [List.reverse_nil, List.nil_append, nonWsChars_append,
            nonWsChars_cons_ws c rest hc]
        · rw [if_neg h1]
          by_cases h2 : isCjkPunct p
          · rw [if_pos h2, List.map_cons, List.flatten_cons,
              ih false [c] (by intro h; cases h)]
            simp [nonWsChars, List.filter_append]
            rw [← List.filter_append, List.singleton_append]
          · rw [if_neg h2, ih false (c :: p :: accRest)
              (by intro h; cases h)]
            simp [nonWsChars, List.filter_append, List.append_assoc]
    · rw [hsk rfl, splitGo]
      by_cases hw : isWs c
      · rw [if_pos hw, ih true [] (fun _ => rfl)]
        rw [List.reverse_nil, List.nil_append, List.nil_append,
          nonWsChars_cons_ws c rest hw]
      · rw [if_neg hw, ih false [c] (by intro h; cases h)]
        rfl

/-- Counterexample to C7 as stated: with the default minimum fragment
length 3, the input `"A. Hello."` loses the non-whitespace,
non-punctuation character `A` entirely — the fragment `"A."` is shorter
than `min_chars` and is dropped whole, so joining the produced sentences
cannot reconstruct the normalised input up to whitespace/punctuation
differences. -/
theorem splitSentences_drops_chars :
    splitSentencesL "A. Hello.".data 3 = ["Hello.".data]
    ∧ 'A' ∈ nonWsChars (normalizeWs "A. Hello.".data)
    ∧ 'A' ∉ nonWsChars (joinSpace (splitSentencesL "A. Hello.".data 3))
    ∧ isWs 'A' = false ∧ isSentPunct 'A' = false
    ∧ isCjkPunct 'A' = false := by
  decide

/-- C7 (amended): joining the produced sentences with single spaces
preserves exactly the non-whitespace characters of the
whitespace-normalised input, in order, provided no stripped fragment falls
below `min_chars` (in particular whenever `min_chars = 0`); a fragment
shorter than `min_chars` is dropped whole, which can lose non-whitespace
characters. -/
theorem splitSentences_preserves_nonWs (text : List Char) (minChars : Nat)
    (hkeep : ∀ p ∈ (splitGo false [] (normalizeWs text)).map stripChars,
      minChars ≤ p.length) :
    nonWsChars (joinSpace (splitSentencesL text minChars))
      = nonWsChars (normalizeWs text) := by
  rw [splitSentencesL]
  by_cases ht : text.isEmpty
  · rw [if_pos ht]
    rw [List.isEmpty_iff.mp ht]
    rfl
  · rw [if_neg ht]
    by_cases hn : (normalizeWs text).isEmpty
    · rw [if_pos hn]
      rw [List.isEmpty_iff.mp hn]
      rfl
    · rw [if_neg hn]
      have hfilter : ((splitGo false [] (normalizeWs text)).map
          stripChars).filter (fun p => minChars ≤ p.length)
          = (splitGo false [] (normalizeWs text)).map stripChars := by
        rw [List.filter_eq_self]
        intro p hp
        simpa using hkeep p hp
      rw [hfilter, nonWsChars_joinSpace, List.map_map]
      rw [show (nonWsChars ∘ stripChars) = nonWsChars from
        funext nonWsChars_stripChars]
      rw [splitGo_filter (normalizeWs text) false [] (by intro h; cases h)]
      rfl

/-- Witness for the amended C7 with `min_chars = 0` on a two-sentence
input. -/
theorem splitSentences_preserves_nonWs_witness :
    (∀ p ∈ (splitGo false []
        (normalizeWs "Hi there. Bye now!".data)).map stripChars,
      0 ≤ p.length)
    ∧ nonWsChars (joinSpace (splitSentencesL "Hi there. Bye now!".data 0))
      = nonWsChars (normalizeWs "Hi there. Bye now!".data) :=
  ⟨fun _ _ => Nat.zero_le _,
    splitSentences_preserves_nonWs "Hi there. Bye now!".data 0
      (fun _ _ => Nat.zero_le _)⟩

end FoundersExplorer
